import Mathlib

/-!
Shallow embedding of the pagination and reading-position engine of the
story-reader repository (`src/components/Reader.tsx`) together with the
`localStorage` persistence layer (`src/lib/storage.ts`).

DOM measurement is abstracted: `paginateBlocks` in the source measures each
block by rendering it into a hidden container styled with the container
width, font family, font size and line height, and reading back
`rect.height + marginTop + marginBottom`.  All of those inputs only reach
the algorithm through the measured height, so the embedding replaces them
by a measurement oracle `measure : Block → ℕ` (pixel heights modelled as
natural numbers; the reader stylesheet only produces non-negative heights
and margins).
-/

namespace Reader

/-- One markup fragment handed to the packer.  `el` records whether the
fragment parses to an element, i.e. whether `wrapper.firstElementChild` is
non-null for it in `paginateBlocks` (`Reader.tsx` line 107); the segmenter
`parseBlocks` only ever emits element fragments (`outerHTML` of an element
or a `<p>…</p>` chunk), but the packer itself accepts any string. -/
structure Block where
  html : String
  el : Bool
deriving DecidableEq, Repr

/-- Result of one pack: the page sequence (each page a list of consecutive
blocks; the source joins them with `'\n'` for rendering) and the parallel
page start-index table. -/
structure PackResult where
  pages : List (List Block)
  pageStartIndexes : List ℕ
deriving DecidableEq, Repr

/-- The `blocks.forEach` loop of `paginateBlocks` (`Reader.tsx` lines
103-130).  Arguments: remaining blocks, current block index, the
accumulated `currentPageBlocks`, and `currentHeight`.  Returns the pages
flushed by the loop together with the start indexes pushed at each flush
(the initial `[0]` entry and the final-page push are handled by the
caller).  A fragment with no element child is skipped unmeasured
(`if (!el) return`). -/
def packGo (measure : Block → ℕ) (avail : ℕ) :
    List Block → ℕ → List Block → ℕ → List (List Block) × List ℕ
  | [], _, cur, _ => (if cur = [] then [] else [cur], [])
  | b :: rest, i, cur, h =>
    if b.el = false then
      packGo measure avail rest (i + 1) cur h
    else if h + measure b > avail ∧ cur ≠ [] then
      let r := packGo measure avail rest (i + 1) [b] (measure b)
      (cur :: r.1, i :: r.2)
    else
      packGo measure avail rest (i + 1) (cur ++ [b]) (h + measure b)

/-- `paginateBlocks` (`Reader.tsx` lines 64-143): run the greedy loop from
an empty current page at height 0, push the final page if non-empty, and
fall back to a single page holding all blocks (start table `[0]`) when the
pass produced no pages. -/
def paginateBlocks (blocks : List Block) (measure : Block → ℕ)
    (availableHeight : ℕ) : PackResult :=
  let r := packGo measure availableHeight blocks 0 [] 0
  if r.1.length > 0 then ⟨r.1, 0 :: r.2⟩ else ⟨[blocks], [0]⟩

/-- Modelled from the spec: the reference greedy single-pass packing of
§4.2, used as the comparison point for the refinement claim about
`paginateBlocks`.  It processes and measures every block ("For each block,
measure its height `h` … If `currentHeight + h > usableHeight` AND the
current page already has at least one block, close the current page …
otherwise append the block"); it has no notion of a fragment that fails to
parse. -/
def specPackGo (measure : Block → ℕ) (avail : ℕ) :
    List Block → ℕ → List Block → ℕ → List (List Block) × List ℕ
  | [], _, cur, _ => (if cur = [] then [] else [cur], [])
  | b :: rest, i, cur, h =>
    if h + measure b > avail ∧ cur ≠ [] then
      let r := specPackGo measure avail rest (i + 1) [b] (measure b)
      (cur :: r.1, i :: r.2)
    else
      specPackGo measure avail rest (i + 1) (cur ++ [b]) (h + measure b)

/-- Modelled from the spec: full reference packing including the degenerate
rule "if packing yields no pages … return a single page containing all
blocks, with a single start index of 0". -/
def specPack (blocks : List Block) (measure : Block → ℕ)
    (availableHeight : ℕ) : PackResult :=
  let r := specPackGo measure availableHeight blocks 0 [] 0
  if r.1.length > 0 then ⟨r.1, 0 :: r.2⟩ else ⟨[blocks], [0]⟩

/-- Cut a block list at a start-index table: page `k` is the run of blocks
from `starts[k]` up to `starts[k+1]` (the last page runs to the end).
Used to state that `start[i]` is the ordinal of the first block of page
`i` and that pages are consecutive slices of the input. -/
def slices (bs : List Block) : List ℕ → List (List Block)
  | [] => []
  | [s] => [bs.drop s]
  | s :: s' :: rest => (bs.drop s).take (s' - s) :: slices bs (s' :: rest)

/-- `oldStartIndexes[oldPage] || 0` (`Reader.tsx` line 218): the block
index that started the page the reader was on; 0 when the table is too
short (JS yields `undefined`, coerced to 0) or the entry itself is 0. -/
def targetBlockIndex (oldStartIndexes : List ℕ) (oldPage : ℕ) : ℕ :=
  oldStartIndexes.getD oldPage 0

/-- The reconciliation scan of `Reader.tsx` lines 221-228: walk the new
start table from the front, remembering the last index whose start is
`≤ target`, and stop at the first one past it (`else break`). -/
def findMatchLoop (target : ℕ) : List ℕ → ℕ → ℕ → ℕ
  | [], _, acc => acc
  | s :: rest, i, acc =>
    if s ≤ target then findMatchLoop target rest (i + 1) i else acc

/-- Position reconciliation on a re-pack (`Reader.tsx` lines 212-230):
map the old current page to its start block and find the page of the new
packing that contains it. -/
def reconcilePage (oldStartIndexes newStartIndexes : List ℕ)
    (oldPage : ℕ) : ℕ :=
  findMatchLoop (targetBlockIndex oldStartIndexes oldPage) newStartIndexes 0 0

/-! ### Persistence layer (`src/lib/storage.ts`) -/

/-- `ThemeName` from `src/lib/types.ts`. -/
inductive ThemeName
  | light | dark | sepia | midnight
deriving DecidableEq, Repr

/-- The margin/width class of `ReaderSettings.marginSize`. -/
inductive MarginSize
  | compact | normal | wide
deriving DecidableEq, Repr

/-- `ReaderSettings` from `src/lib/types.ts`. -/
structure ReaderSettings where
  fontFamily : String
  fontSize : ℕ
  lineHeight : ℚ
  theme : ThemeName
  marginSize : MarginSize
deriving DecidableEq, Repr

/-- A stored settings value as found in `localStorage`: a JSON object that
may miss any of the fields (each field is present or absent). -/
structure StoredSettings where
  fontFamily : Option String
  fontSize : Option ℕ
  lineHeight : Option ℚ
  theme : Option ThemeName
  marginSize : Option MarginSize
deriving DecidableEq, Repr

/-- `DEFAULT_SETTINGS` (`storage.ts` lines 8-14). -/
def DEFAULT_SETTINGS : ReaderSettings :=
  { fontFamily := "Literata"
    fontSize := 19
    lineHeight := (18 : ℚ) / 10
    theme := ThemeName.dark
    marginSize := MarginSize.normal }

/-- The object spread `{ ...DEFAULT_SETTINGS, ...JSON.parse(raw) }`: every
field present in the stored record wins, every absent field keeps the
default. -/
def spreadSettings (d : ReaderSettings) (s : StoredSettings) : ReaderSettings :=
  { fontFamily := s.fontFamily.getD d.fontFamily
    fontSize := s.fontSize.getD d.fontSize
    lineHeight := s.lineHeight.getD d.lineHeight
    theme := s.theme.getD d.theme
    marginSize := s.marginSize.getD d.marginSize }

/-- `getSettings` (`storage.ts` lines 93-97), with the `localStorage` read
made explicit: `stored` is the parsed record under the settings key, or
`none` when the key is absent. -/
def getSettings (stored : Option StoredSettings) : ReaderSettings :=
  match stored with
  | some s => spreadSettings DEFAULT_SETTINGS s
  | none => DEFAULT_SETTINGS

/-- `ReadingProgress` from `src/lib/types.ts`. -/
structure ReadingProgress where
  storyId : String
  currentPage : ℕ
  totalPages : ℕ
  lastReadAt : ℕ
  scrollPosition : Option ℕ
deriving DecidableEq, Repr

/-- `Story` from `src/lib/types.ts` (the optional `progress` field is a
cache the storage layer never reads back; it is kept for fidelity). -/
structure Story where
  id : String
  title : String
  author : String
  content : String
  excerpt : String
  siteName : String
  url : String
  savedAt : ℕ
  wordCount : ℕ
  isRead : Option Bool
  progress : Option ReadingProgress
deriving DecidableEq, Repr

/-- A chat message as stored under the chat-history key. -/
structure ChatMessage where
  role : String
  content : String
deriving DecidableEq, Repr

/-- The four `localStorage` slots used by `storage.ts`
(`storyreader_stories`, `storyreader_progress`, `storyreader_settings`,
`storyreader_chat`); an absent list-valued key parses to `[]`, the absent
settings key is `none`. -/
structure LocalStorage where
  stories : List Story
  progress : List ReadingProgress
  settings : Option StoredSettings
  chat : List ChatMessage
deriving DecidableEq, Repr

/-- `getStories` (`storage.ts` lines 18-22). -/
def getStories (st : LocalStorage) : List Story :=
  st.stories

/-- `getProgress` (`storage.ts` lines 65-70): `all.find(p => p.storyId === storyId)`. -/
def getProgress (storyId : String) (allProgress : List ReadingProgress) :
    Option ReadingProgress :=
  allProgress.find? (fun p => p.storyId = storyId)

/-- `deleteProgress` (`storage.ts` lines 84-89): drop every progress record
for the story and write the filtered list back. -/
def deleteProgress (storyId : String) (st : LocalStorage) : LocalStorage :=
  { st with progress := st.progress.filter (fun p => ¬ p.storyId = storyId) }

/-- `deleteStory` (`storage.ts` lines 39-43): write back the story list
without the story, then delete its progress records. -/
def deleteStory (id : String) (st : LocalStorage) : LocalStorage :=
  deleteProgress id
    { st with stories := (getStories st).filter (fun s => ¬ s.id = id) }

/-! ### Reading session controller (`Reader.tsx`, component state) -/

/-- The component state of `Reader` that pagination and navigation touch:
`currentPage` (mirrored by `currentPageRef`), `pages`, the
`pageStartIndexesRef` table, the `initialLoadDone` ref, the `ready` flag
and the `showSettings` modal flag.  The transient `pageAnimation` marker
is presentation-only (a CSS class cleared by a timer) and carries no
navigation semantics, so it is not part of the state. -/
structure ReaderState where
  currentPage : ℕ
  pages : List (List Block)
  pageStartIndexes : List ℕ
  initialLoadDone : Bool
  ready : Bool
  showSettings : Bool
deriving DecidableEq, Repr

/-- The state of a freshly mounted `Reader`: `useState(0)`, `useState([])`,
`useRef([0])`, `useRef(false)`, `useState(false)`, `useState(false)`. -/
def initialReaderState : ReaderState :=
  { currentPage := 0
    pages := []
    pageStartIndexes := [0]
    initialLoadDone := false
    ready := false
    showSettings := false }

/-- `doPagination` (`Reader.tsx` lines 183-236) as a state transition.
`windowInnerHeight` is `window.innerHeight`; the available height is
computed as `innerHeight - 56 - 48 - 80 - 3` (toolbar, paddings, progress
bar) and the pack is skipped at or below the 100-unit sanity threshold
(in ℕ, truncated subtraction agrees with the JS comparison: both sides
are `≤ 100` exactly when `innerHeight ≤ 287`).  The `contentRef` null
guard cannot fire while the effect runs (the content div is always
rendered), and the container width reaches the algorithm only through the
measurement oracle. -/
def doPagination (st : ReaderState) (blocks : List Block)
    (measure : Block → ℕ) (windowInnerHeight : ℕ) (storyId : String)
    (allProgress : List ReadingProgress) : ReaderState :=
  if blocks.length = 0 then st
  else
    let availableHeight := windowInnerHeight - 56 - 48 - 80 - 3
    if availableHeight ≤ 100 then st
    else
      let r := paginateBlocks blocks measure availableHeight
      if st.initialLoadDone = false then
        let cp :=
          match getProgress storyId allProgress with
          | some p =>
            if p.currentPage < r.pages.length then p.currentPage
            else st.currentPage
          | none => st.currentPage
        { st with
            pages := r.pages
            ready := true
            initialLoadDone := true
            currentPage := cp
            pageStartIndexes := r.pageStartIndexes }
      else
        { st with
            pages := r.pages
            ready := true
            currentPage :=
              reconcilePage st.pageStartIndexes r.pageStartIndexes
                st.currentPage
            pageStartIndexes := r.pageStartIndexes }

/-- `goToPage` (`Reader.tsx` lines 265-271): bounds-checked page change
(the direction-tagged animation class it also sets is presentation-only). -/
def goToPage (st : ReaderState) (page : ℕ) : ReaderState :=
  if page < st.pages.length then { st with currentPage := page } else st

/-- `nextPage` (`Reader.tsx` lines 273-277). -/
def nextPage (st : ReaderState) : ReaderState :=
  if st.currentPage < st.pages.length - 1 then
    goToPage st (st.currentPage + 1)
  else st

/-- `prevPage` (`Reader.tsx` lines 279-283). -/
def prevPage (st : ReaderState) : ReaderState :=
  if 0 < st.currentPage then goToPage st (st.currentPage - 1) else st

/-- `handleKeyDown` (`Reader.tsx` lines 287-298): every key is ignored
while the settings modal is open; otherwise ArrowRight and space go
forward, ArrowLeft goes back (Escape leaves the reader and never touches
`currentPage`, so it acts as the identity on this state). -/
def handleKeyDown (st : ReaderState) (key : String) : ReaderState :=
  if st.showSettings then st
  else if key = "ArrowRight" ∨ key = " " then nextPage st
  else if key = "ArrowLeft" then prevPage st
  else st

/-- A navigation command reaching the reader: a keyboard event, or a
pointer press on one of the margin click-zones. -/
inductive ReaderCommand
  | key (k : String)
  | clickNextZone
  | clickPrevZone
deriving DecidableEq, Repr

/-- Dispatch of one user command.  Keyboard events go through
`handleKeyDown`.  For pointer input: the click-zones (`Reader.tsx` lines
367-376 and 434-443) are only rendered away from the first/last page, and
their handlers are `prevPage`/`nextPage`.  Modelled from the spec: the
stylesheet (`globals.css`, imported by the app layout but absent from the
sources) renders the settings panel's `settings-overlay` as a
full-viewport layer above the reading area while `showSettings` is true,
so a pointer press then lands on the overlay — whose handler is
`onClose`, i.e. `setShowSettings(false)` — and never reaches a
click-zone; the spec states "Keyboard/pointer navigation commands are
rejected while a modal settings surface is open". -/
def dispatch (st : ReaderState) : ReaderCommand → ReaderState
  | ReaderCommand.key k => handleKeyDown st k
  | ReaderCommand.clickNextZone =>
    if st.showSettings then { st with showSettings := false }
    else if st.currentPage < st.pages.length - 1 then nextPage st
    else st
  | ReaderCommand.clickPrevZone =>
    if st.showSettings then { st with showSettings := false }
    else if 0 < st.currentPage then prevPage st
    else st

/-! ### Block segmenter fallback (`parseBlocks`, `Reader.tsx` lines 19-58) -/

/-- Sentence-ending punctuation of the fallback splitter's regex
`/(?<=[.!?])\s+/`. -/
def isSentenceEnd (c : Char) : Bool :=
  c = '.' ∨ c = '!' ∨ c = '?'

/-- Whether the remaining text starts with a whitespace character (the
`\s` immediately after the lookbehind). -/
def startsWithWhitespace : List Char → Bool
  | [] => false
  | c :: _ => c.isWhitespace

/-- `text.split(/(?<=[.!?])\s+/)` over the character list, written as a
single left-to-right scan: a split happens after a sentence-ending
character that is followed by whitespace, and the maximal whitespace run
is consumed as the separator (`skipping = true` while inside it), so a
separator at the very end of the text leaves a final empty part, exactly
as the JS `split` does.  `acc` holds the current part reversed. -/
def splitSentencesGo : Bool → List Char → List Char → List (List Char)
  | _, acc, [] => [acc.reverse]
  | skipping, acc, c :: rest =>
    if skipping ∧ c.isWhitespace then
      splitSentencesGo true acc rest
    else if isSentenceEnd c ∧ startsWithWhitespace rest then
      (acc.reverse ++ [c]) :: splitSentencesGo true [] rest
    else
      splitSentencesGo false (c :: acc) rest

/-- The sentence list of the fallback chunker. -/
def splitSentences (text : List Char) : List (List Char) :=
  splitSentencesGo false [] text

/-- `` `<p>${chunk}</p>` `` — the paragraph-equivalent block emitted for one
accumulated chunk. -/
def wrapP (chunk : List Char) : List Char :=
  "<p>".toList ++ chunk ++ "</p>".toList

/-- The accumulation loop of the fallback (`Reader.tsx` lines 45-54): walk
the sentences, flushing the chunk as a paragraph block when adding the
next sentence would push it past 500 characters and it is non-empty,
otherwise appending the sentence (space-separated); a non-empty final
chunk is flushed after the loop. -/
def chunkSentences : List (List Char) → List Char → List (List Char) →
    List (List Char)
  | [], chunk, blocks =>
    if chunk = [] then blocks else blocks ++ [wrapP chunk]
  | s :: rest, chunk, blocks =>
    if chunk.length + s.length > 500 ∧ chunk.length > 0 then
      chunkSentences rest s (blocks ++ [wrapP chunk])
    else
      chunkSentences rest
        (chunk ++ (if chunk = [] then [] else [' ']) ++ s) blocks

/-- The whole fallback path: split the plain text into sentences, then
greedily accumulate them into ≤ 500-character paragraph chunks. -/
def fallbackBlocks (text : List Char) : List (List Char) :=
  chunkSentences (splitSentences text) [] []

/-- `parseBlocks` (`Reader.tsx` lines 19-58) with the DOM walk abstracted:
`structural` is the list of block fragments `collectBlocks` gathered from
the markup tree's children (recursing through wrapper `div`s), and `text`
is the tree's `textContent`.  When the walk found no blocks, the fallback
chunker runs on the plain text. -/
def parseBlocks (structural : List (List Char)) (text : List Char) :
    List (List Char) :=
  if structural.length = 0 then fallbackBlocks text else structural

/-! ### Sample inputs for concrete evaluations -/

/-- A sample element block. -/
def blockA : Block := ⟨"<p>A</p>", true⟩

/-- A sample element block. -/
def blockB : Block := ⟨"<p>B</p>", true⟩

/-- A sample element block. -/
def blockC : Block := ⟨"<p>C</p>", true⟩

/-- A fragment with no element child (`wrapper.firstElementChild` is null
for bare text). -/
def blockT : Block := ⟨"plain text", false⟩

/-- A measurement oracle giving every block a height of 100 units. -/
def measure100 : Block → ℕ := fun _ => 100

/-! ### Theorems -/

/-- C9: `getSettings` always returns a fully populated settings record:
each field takes the stored value when the stored record has it and the
default (`Literata`, 19, 1.8, dark theme, normal margins) otherwise, and
with no stored record it returns exactly the defaults. -/
theorem getSettings_fills_defaults (s : StoredSettings) :
    getSettings none = DEFAULT_SETTINGS ∧
    (getSettings (some s)).fontFamily = s.fontFamily.getD "Literata" ∧
    (getSettings (some s)).fontSize = s.fontSize.getD 19 ∧
    (getSettings (some s)).lineHeight = s.lineHeight.getD ((18 : ℚ) / 10) ∧
    (getSettings (some s)).theme = s.theme.getD ThemeName.dark ∧
    (getSettings (some s)).marginSize = s.marginSize.getD MarginSize.normal :=
  ⟨rfl, rfl, rfl, rfl, rfl, rfl⟩

/-- C10: `deleteStory id` removes the story with that id (keeping the
remaining stories in order, as a sublist of the original) and every
progress record for that id (again in order), and leaves all other
stories, all other progress records, the settings record and the chat
history unchanged. -/
theorem deleteStory_removes_story_and_progress (id : String)
    (st : LocalStorage) :
    (deleteStory id st).stories = st.stories.filter (fun s => ¬ s.id = id) ∧
    (deleteStory id st).progress
      = st.progress.filter (fun p => ¬ p.storyId = id) ∧
    (deleteStory id st).settings = st.settings ∧
    (deleteStory id st).chat = st.chat ∧
    (deleteStory id st).stories.Sublist st.stories ∧
    (deleteStory id st).progress.Sublist st.progress ∧
    (∀ s, s ∈ (deleteStory id st).stories ↔ s ∈ st.stories ∧ ¬ s.id = id) ∧
    (∀ p, p ∈ (deleteStory id st).progress ↔
      p ∈ st.progress ∧ ¬ p.storyId = id) := by
  refine ⟨rfl, rfl, rfl, rfl, ?_, ?_, ?_, ?_⟩
  · exact List.filter_sublist _
  · exact List.filter_sublist _
  · intro s
    simp [deleteStory, deleteProgress, getStories, List.mem_filter]
  · intro p
    simp [deleteStory, deleteProgress, getStories, List.mem_filter]

/-- C7: when the computed available height is at or below the 100-unit
sanity threshold, `doPagination` is skipped entirely: the resulting state
(pages, start-index table, current page, flags) is exactly the prior
state, and the transition is total (no error path). -/
theorem doPagination_skipped_when_unmeasurable (st : ReaderState)
    (blocks : List Block) (measure : Block → ℕ) (wh : ℕ) (sid : String)
    (allProgress : List ReadingProgress)
    (h : wh - 56 - 48 - 80 - 3 ≤ 100) :
    doPagination st blocks measure wh sid allProgress = st := by
  unfold doPagination
  split
  · rfl
  · simp [h]

/-- Witness for C7 at a concrete input: `window.innerHeight = 287` gives
an available height of exactly 100, so the pack is skipped. -/
theorem doPagination_skipped_when_unmeasurable_witness :
    287 - 56 - 48 - 80 - 3 ≤ 100 ∧
    doPagination initialReaderState [blockA, blockB] measure100 287 "s1" []
      = initialReaderState :=
  ⟨by decide,
    doPagination_skipped_when_unmeasurable initialReaderState
      [blockA, blockB] measure100 287 "s1" [] (by decide)⟩

/-- C5: on the very first pagination (initial reader state: no prior
packing in the session), the current page comes from the persisted
progress record when one exists for the story and its stored page index
is strictly below the new page count; otherwise the current page is 0. -/
theorem firstPagination_initial_page (blocks : List Block)
    (measure : Block → ℕ) (wh : ℕ) (sid : String)
    (allProgress : List ReadingProgress)
    (hb : blocks ≠ []) (hh : 100 < wh - 56 - 48 - 80 - 3) :
    (∀ p, getProgress sid allProgress = some p →
      (doPagination initialReaderState blocks measure wh sid
          allProgress).currentPage =
        if p.currentPage <
            (doPagination initialReaderState blocks measure wh sid
              allProgress).pages.length
        then p.currentPage else 0) ∧
    (getProgress sid allProgress = none →
      (doPagination initialReaderState blocks measure wh sid
          allProgress).currentPage = 0) := by
  have hlen : ¬ blocks.length = 0 := by
    simpa [List.length_eq_zero] using hb
  have hgt : ¬ wh - 56 - 48 - 80 - 3 ≤ 100 := by omega
  constructor
  · intro p hp
    simp only [doPagination, hlen, if_false, hgt, initialReaderState, hp]
    split <;> simp_all
  · intro hp
    simp only [doPagination, hlen, if_false, hgt, initialReaderState, hp]
    simp

/-- Witness for C5 at a concrete input: three 100-unit blocks at
`window.innerHeight = 437` (available height 250) pack into two pages;
the stored record for the story holds page 1, which is within range and
is restored. -/
theorem firstPagination_initial_page_witness :
    ([blockA, blockB, blockC] : List Block) ≠ [] ∧
    100 < 437 - 56 - 48 - 80 - 3 ∧
    (doPagination initialReaderState [blockA, blockB, blockC] measure100
        437 "s1" [⟨"s1", 1, 3, 0, none⟩]).currentPage =
      if 1 < (doPagination initialReaderState [blockA, blockB, blockC]
          measure100 437 "s1" [⟨"s1", 1, 3, 0, none⟩]).pages.length
      then 1 else 0 :=
  ⟨by decide, by decide,
    (firstPagination_initial_page [blockA, blockB, blockC] measure100 437
      "s1" [⟨"s1", 1, 3, 0, none⟩] (by decide) (by decide)).1
      ⟨"s1", 1, 3, 0, none⟩ (by decide)⟩

/-- C8: while the settings modal is open, every navigation command —
keyboard (arrow keys, space, via `handleKeyDown`) and pointer (the
next/prev click-zones, whose presses the full-viewport settings overlay
captures) — leaves `currentPage` unchanged. -/
theorem modal_open_rejects_navigation (st : ReaderState)
    (cmd : ReaderCommand) (h : st.showSettings = true) :
    (dispatch st cmd).currentPage = st.currentPage := by
  cases cmd with
  | key k => simp [dispatch, handleKeyDown, h]
  | clickNextZone => simp [dispatch, h]
  | clickPrevZone => simp [dispatch, h]

/-- Witness for C8 at a concrete input: with the modal open on page 1 of
three pages, an ArrowRight keypress leaves the current page at 1. -/
theorem modal_open_rejects_navigation_witness :
    (⟨1, [[blockA], [blockB], [blockC]], [0, 1, 2], true, true, true⟩ :
      ReaderState).showSettings = true ∧
    (dispatch
      ⟨1, [[blockA], [blockB], [blockC]], [0, 1, 2], true, true, true⟩
      (ReaderCommand.key "ArrowRight")).currentPage = 1 :=
  ⟨by decide,
    modal_open_rejects_navigation
      ⟨1, [[blockA], [blockB], [blockC]], [0, 1, 2], true, true, true⟩
      (ReaderCommand.key "ArrowRight") (by decide)⟩

/-- The reconciliation scan in closed form: it returns its accumulator
when no leading start qualifies, and otherwise the position of the last
element of the leading run of starts that are `≤ target`. -/
theorem findMatchLoop_eq (t : ℕ) :
    ∀ (l : List ℕ) (i acc : ℕ),
      findMatchLoop t l i acc =
        if (l.takeWhile (fun s => s ≤ t)).length = 0 then acc
        else i + (l.takeWhile (fun s => s ≤ t)).length - 1 := by
  intro l
  induction l with
  | nil => intro i acc; simp [findMatchLoop]
  | cons s rest ih =>
    intro i acc
    by_cases hs : s ≤ t
    · rw [findMatchLoop, if_pos hs, ih,
        List.takeWhile_cons_of_pos (by simpa using hs)]
      by_cases h0 : (rest.takeWhile (fun s => s ≤ t)).length = 0
      · simp [h0]
      · simp only [h0, if_false, List.length_cons, Nat.succ_ne_zero]
        omega
    · rw [findMatchLoop, if_neg hs,
        List.takeWhile_cons_of_neg (by simpa using hs)]
      simp

/-- Every position inside the `takeWhile` run satisfies the test. -/
theorem getD_of_lt_takeWhile_length (p : ℕ → Bool) :
    ∀ (l : List ℕ) (i : ℕ), i < (l.takeWhile p).length →
      p (l.getD i 0) = true := by
  intro l
  induction l with
  | nil => intro i h; simp [List.takeWhile] at h
  | cons s rest ih =>
    intro i h
    by_cases hs : p s
    · rw [List.takeWhile_cons_of_pos hs] at h
      cases i with
      | zero => simpa using hs
      | succ j =>
        simpa using ih j (by simpa using Nat.lt_of_succ_lt_succ h)
    · rw [List.takeWhile_cons_of_neg hs] at h
      simp at h

/-- The element right after the `takeWhile` run fails the test. -/
theorem getD_at_takeWhile_length (p : ℕ → Bool) :
    ∀ (l : List ℕ), (l.takeWhile p).length < l.length →
      p (l.getD (l.takeWhile p).length 0) = false := by
  intro l
  induction l with
  | nil => intro h; simp at h
  | cons s rest ih =>
    intro h
    by_cases hs : p s
    · rw [List.takeWhile_cons_of_pos hs] at h ⊢
      simpa using ih (by simpa using Nat.lt_of_succ_lt_succ h)
    · rw [List.takeWhile_cons_of_neg hs]
      simpa using hs

/-- In a strictly increasing list, values respect positions. -/
theorem getD_lt_getD_of_pairwise {l : List ℕ}
    (hs : List.Pairwise (· < ·) l) {i j : ℕ} (hij : i < j)
    (hj : j < l.length) : l.getD i 0 < l.getD j 0 := by
  have hi : i < l.length := lt_trans hij hj
  rw [List.getD_eq_getElem l 0 hi, List.getD_eq_getElem l 0 hj]
  exact List.pairwise_iff_getElem.mp hs i j hi hj hij

/-- C3: position reconciliation on a re-pack.  The target block is
`oldStartIndexes[oldCurrentPage]` (0 when the index is out of range, in
particular when the old table is empty); against a strictly increasing
new start table the scan returns the largest page index whose start is
`≤ target` (0 when none qualifies), so the reconciled page's start is
`≤ target` and no later page's start is. -/
theorem reconcilePage_tightest_containing (oldS newS : List ℕ)
    (oldPage : ℕ) (hs : List.Pairwise (· < ·) newS) :
    (oldS.length ≤ oldPage → targetBlockIndex oldS oldPage = 0) ∧
    ((∀ i, i < newS.length →
        targetBlockIndex oldS oldPage < newS.getD i 0) →
      reconcilePage oldS newS oldPage = 0) ∧
    (∀ i, i < newS.length →
      newS.getD i 0 ≤ targetBlockIndex oldS oldPage →
      i ≤ reconcilePage oldS newS oldPage ∧
      reconcilePage oldS newS oldPage < newS.length ∧
      newS.getD (reconcilePage oldS newS oldPage) 0 ≤
        targetBlockIndex oldS oldPage) ∧
    (∀ j, reconcilePage oldS newS oldPage < j → j < newS.length →
      targetBlockIndex oldS oldPage < newS.getD j 0) := by
  set t := targetBlockIndex oldS oldPage with ht
  have hr : reconcilePage oldS newS oldPage =
      if (newS.takeWhile (fun s => s ≤ t)).length = 0 then 0
      else 0 + (newS.takeWhile (fun s => s ≤ t)).length - 1 :=
    findMatchLoop_eq t newS 0 0
  set tw := (newS.takeWhile (fun s => s ≤ t)).length with htw
  have htw_le : tw ≤ newS.length :=
    (List.takeWhile_prefix _).length_le
  have hmem : ∀ i, i < tw → newS.getD i 0 ≤ t := by
    intro i hi
    have := getD_of_lt_takeWhile_length (fun s => s ≤ t) newS i hi
    simpa using this
  have hfail : tw < newS.length → t < newS.getD tw 0 := by
    intro h
    have := getD_at_takeWhile_length (fun s => s ≤ t) newS h
    simp only [decide_eq_false_iff_not, Nat.not_le] at this
    exact this
  have hmono : ∀ {i j}, i < j → j < newS.length →
      newS.getD i 0 < newS.getD j 0 := fun hij hj =>
    getD_lt_getD_of_pairwise hs hij hj
  have htw_pos : ∀ i, i < newS.length → newS.getD i 0 ≤ t → i < tw := by
    intro i hi hqi
    by_contra hcon
    push_neg at hcon
    have hlt : tw < newS.length := lt_of_le_of_lt hcon hi
    have hft : t < newS.getD tw 0 := hfail hlt
    rcases Nat.lt_or_ge tw i with hti | hti
    · exact absurd (le_trans (le_of_lt (hmono hti hi)) hqi)
        (not_le_of_lt hft)
    · have : tw = i := le_antisymm hcon hti
      rw [this] at hft
      exact absurd hqi (not_le_of_lt hft)
  refine ⟨?_, ?_, ?_, ?_⟩
  · intro hlen
    rw [ht]
    unfold targetBlockIndex
    exact List.getD_eq_default _ _ hlen
  · intro hall
    rcases Nat.eq_zero_or_pos tw with h0 | hpos
    · rw [hr, if_pos h0]
    · have h0lt : 0 < newS.length := lt_of_lt_of_le hpos htw_le
      exact absurd (hmem 0 hpos) (not_le_of_lt (hall 0 h0lt))
  · intro i hi hqi
    have hipos : i < tw := htw_pos i hi hqi
    have hpos : 0 < tw := Nat.lt_of_le_of_lt (Nat.zero_le i) hipos
    have hrtw : reconcilePage oldS newS oldPage = tw - 1 := by
      rw [hr, if_neg (Nat.pos_iff_ne_zero.mp hpos)]
      omega
    refine ⟨by omega, by omega, ?_⟩
    rw [hrtw]
    exact hmem (tw - 1) (by omega)
  · intro j hrj hj
    rcases Nat.eq_zero_or_pos tw with h0 | hpos
    · have hr0 : reconcilePage oldS newS oldPage = 0 := by
        rw [hr, if_pos h0]
      rw [hr0] at hrj
      have hf0 : t < newS.getD 0 0 := by
        have := hfail (h0 ▸ lt_of_le_of_lt (Nat.zero_le j) hj)
        rwa [h0] at this
      exact lt_trans hf0 (hmono hrj hj)
    · have hrtw : reconcilePage oldS newS oldPage = tw - 1 := by
        rw [hr, if_neg (Nat.pos_iff_ne_zero.mp hpos)]
        omega
      rw [hrtw] at hrj
      have htwj : tw ≤ j := by omega
      have htwlt : tw < newS.length := lt_of_le_of_lt htwj hj
      rcases Nat.lt_or_ge tw j with hlt | hge
      · exact lt_trans (hfail htwlt) (hmono hlt hj)
      · have : tw = j := le_antisymm htwj hge
        rw [← this]
        exact hfail htwlt

/-- Witness for C3 at the spec's worked example: old table `[0, 12]`,
old page 1 (target block 12), new table `[0, 5, 10, 15, 20]` —
reconciliation lands on a page at least 2 (start 10 ≤ 12), within the
five pages, with start `≤ 12`. -/
theorem reconcilePage_tightest_containing_witness :
    2 ≤ reconcilePage [0, 12] [0, 5, 10, 15, 20] 1 ∧
    reconcilePage [0, 12] [0, 5, 10, 15, 20] 1 < 5 ∧
    ([0, 5, 10, 15, 20] : List ℕ).getD
      (reconcilePage [0, 12] [0, 5, 10, 15, 20] 1) 0 ≤
      targetBlockIndex [0, 12] 1 := by
  have h := (reconcilePage_tightest_containing [0, 12] [0, 5, 10, 15, 20] 1
    (by decide)).2.2.1 2 (by decide) (by decide)
  exact ⟨h.1, h.2.1, h.2.2⟩

/-- Outside a separator run, the first part the splitter produces is
non-empty as soon as the part under construction or the remaining text
is. -/
theorem splitSentencesGo_head_ne :
    ∀ (text acc : List Char), acc ≠ [] ∨ text ≠ [] →
      ∃ s ss, splitSentencesGo false acc text = s :: ss ∧ s ≠ [] := by
  intro text
  induction text with
  | nil =>
    intro acc hne
    refine ⟨acc.reverse, [], rfl, ?_⟩
    rcases hne with h | h
    · simpa using h
    · exact absurd rfl h
  | cons c rest ih =>
    intro acc _
    rw [splitSentencesGo, if_neg (by simp)]
    by_cases hsplit : isSentenceEnd c ∧ startsWithWhitespace rest
    · rw [if_pos hsplit]
      exact ⟨acc.reverse ++ [c], _, rfl, by simp⟩
    · rw [if_neg hsplit]
      exact ih (c :: acc) (Or.inl (by simp))

/-- The chunk accumulation never ends empty once the pending chunk or the
emitted block list is non-empty. -/
theorem chunkSentences_ne :
    ∀ (sentences : List (List Char)) (chunk : List Char)
      (blocks : List (List Char)), chunk ≠ [] ∨ blocks ≠ [] →
      chunkSentences sentences chunk blocks ≠ [] := by
  intro sentences
  induction sentences with
  | nil =>
    intro chunk blocks hne
    rw [chunkSentences]
    by_cases hc : chunk = []
    · rw [if_pos hc]
      rcases hne with h | h
      · exact absurd hc h
      · exact h
    · rw [if_neg hc]
      simp
  | cons s rest ih =>
    intro chunk blocks hne
    rw [chunkSentences]
    by_cases hflush : chunk.length + s.length > 500 ∧ chunk.length > 0
    · rw [if_pos hflush]
      exact ih s (blocks ++ [wrapP chunk]) (Or.inr (by simp))
    · rw [if_neg hflush]
      by_cases hc : chunk = []
      · rcases hne with h | h
        · exact absurd hc h
        · exact ih _ blocks (Or.inr h)
      · exact ih _ blocks (Or.inl (by simp [hc]))

/-- The fallback chunker emits at least one paragraph block for any
non-empty plain text. -/
theorem fallbackBlocks_ne (text : List Char) (h : text ≠ []) :
    fallbackBlocks text ≠ [] := by
  obtain ⟨s, ss, hsplit, hs⟩ :=
    splitSentencesGo_head_ne text [] (Or.inr h)
  unfold fallbackBlocks splitSentences
  rw [hsplit, chunkSentences,
    if_neg (by simp), if_pos rfl]
  simpa using chunkSentences_ne ss s [] (Or.inl hs)

/-- C6: when the markup walk yields zero structural blocks but the plain
text has a non-whitespace character, `parseBlocks` takes the fallback
path — splitting the text into sentences at sentence-ending punctuation
followed by whitespace and greedily accumulating them into paragraph
chunks — and its output is never empty. -/
theorem parseBlocks_fallback_nonempty (structural : List (List Char))
    (text : List Char) (hstruct : structural = [])
    (hc : ∃ c ∈ text, c.isWhitespace = false) :
    parseBlocks structural text
      = chunkSentences (splitSentences text) [] [] ∧
    parseBlocks structural text ≠ [] := by
  have htext : text ≠ [] := by
    rintro rfl
    obtain ⟨c, hc, -⟩ := hc
    exact absurd hc (List.not_mem_nil c)
  subst hstruct
  exact ⟨by rw [parseBlocks]; rfl, fallbackBlocks_ne text htext⟩

/-- Witness for C6 at a concrete input: no structural blocks, plain text
"Hi there. Bye!" (which has non-whitespace characters) — the fallback
output is the chunked sentence list and is non-empty. -/
theorem parseBlocks_fallback_nonempty_witness :
    (∃ c ∈ "Hi there. Bye!".toList, c.isWhitespace = false) ∧
    parseBlocks [] "Hi there. Bye!".toList
      = chunkSentences (splitSentences "Hi there. Bye!".toList) [] [] ∧
    parseBlocks [] "Hi there. Bye!".toList ≠ [] :=
  ⟨by decide,
    parseBlocks_fallback_nonempty [] "Hi there. Bye!".toList rfl (by decide)⟩

/-- On blocks that all parse to elements, the packer loop coincides with
the spec's reference loop (the skip branch is dead). -/
theorem packGo_eq_specPackGo (m : Block → ℕ) (a : ℕ) :
    ∀ (rest : List Block) (i : ℕ) (cur : List Block) (h : ℕ),
      (∀ b ∈ rest, b.el = true) →
      packGo m a rest i cur h = specPackGo m a rest i cur h := by
  intro rest
  induction rest with
  | nil => intro i cur h _; rfl
  | cons b rest ih =>
    intro i cur h hel
    have hb : b.el = true := hel b (by simp)
    have hel' : ∀ x ∈ rest, x.el = true := fun x hx => hel x (by simp [hx])
    rw [packGo, specPackGo, if_neg (by simp [hb])]
    by_cases hc : h + m b > a ∧ cur ≠ []
    · rw [if_pos hc, if_pos hc]
      simp only [ih _ _ _ hel']
    · rw [if_neg hc, if_neg hc]
      exact ih _ _ _ hel'

/-- On element blocks, the pages the loop flushes concatenate to the
pending page followed by the remaining input. -/
theorem packGo_join (m : Block → ℕ) (a : ℕ) :
    ∀ (rest : List Block) (i : ℕ) (cur : List Block) (h : ℕ),
      (∀ b ∈ rest, b.el = true) →
      (packGo m a rest i cur h).1.flatten = cur ++ rest := by
  intro rest
  induction rest with
  | nil =>
    intro i cur h _
    rw [packGo]
    by_cases hc : cur = []
    · simp [hc]
    · simp [hc]
  | cons b rest ih =>
    intro i cur h hel
    have hb : b.el = true := hel b (by simp)
    have hel' : ∀ x ∈ rest, x.el = true := fun x hx => hel x (by simp [hx])
    rw [packGo, if_neg (by simp [hb])]
    by_cases hc : h + m b > a ∧ cur ≠ []
    · rw [if_pos hc]
      simp only [List.flatten_cons]
      rw [ih _ _ _ hel']
      simp
    · rw [if_neg hc]
      rw [ih _ _ _ hel']
      simp

/-- On element blocks, the loop flushes at least one page as soon as the
pending page or the remaining input is non-empty. -/
theorem packGo_pages_ne (m : Block → ℕ) (a : ℕ) :
    ∀ (rest : List Block) (i : ℕ) (cur : List Block) (h : ℕ),
      (∀ b ∈ rest, b.el = true) → cur ≠ [] ∨ rest ≠ [] →
      (packGo m a rest i cur h).1 ≠ [] := by
  intro rest
  induction rest with
  | nil =>
    intro i cur h _ hne
    rcases hne with hc | hc
    · rw [packGo, if_neg hc]
      simp
    · exact absurd rfl hc
  | cons b rest ih =>
    intro i cur h hel _
    have hb : b.el = true := hel b (by simp)
    have hel' : ∀ x ∈ rest, x.el = true := fun x hx => hel x (by simp [hx])
    rw [packGo, if_neg (by simp [hb])]
    by_cases hc : h + m b > a ∧ cur ≠ []
    · rw [if_pos hc]
      simp
    · rw [if_neg hc]
      exact ih _ _ _ hel' (Or.inl (by simp))

/-- Invariant of the packer loop: as long as the running height is the
sum of the pending page's measured heights and any oversized block in the
pending page already sits alone there, every flushed page containing an
oversized block is that block alone. -/
theorem packGo_oversized (m : Block → ℕ) (a : ℕ) :
    ∀ (rest : List Block) (i : ℕ) (cur : List Block) (h : ℕ),
      h = (cur.map m).sum →
      (∀ b ∈ cur, a < m b → cur = [b]) →
      ∀ p ∈ (packGo m a rest i cur h).1, ∀ b ∈ p, a < m b → p = [b] := by
  intro rest
  induction rest with
  | nil =>
    intro i cur h _ hinv p hp
    rw [packGo] at hp
    by_cases hc : cur = []
    · rw [if_pos hc] at hp
      simp at hp
    · rw [if_neg hc] at hp
      simp only [List.mem_singleton] at hp
      subst hp
      exact hinv
  | cons b rest ih =>
    intro i cur h hsum hinv p hp
    rw [packGo] at hp
    by_cases hb : b.el = false
    · rw [if_pos hb] at hp
      exact ih _ _ _ hsum hinv p hp
    · rw [if_neg hb] at hp
      by_cases hc : h + m b > a ∧ cur ≠ []
      · rw [if_pos hc] at hp
        simp only [List.mem_cons] at hp
        rcases hp with rfl | hp
        · exact hinv
        · refine ih _ _ _ (by simp) ?_ p hp
          intro x hx _
          simp only [List.mem_singleton] at hx
          rw [hx]
      · rw [if_neg hc] at hp
        by_cases hcur : cur = []
        · subst hcur
          refine ih _ _ _ (by simp [hsum]) ?_ p hp
          intro x hx _
          simp only [List.nil_append, List.mem_singleton] at hx
          simp [hx]
        · have hle : h + m b ≤ a := by
            rcases le_or_lt (h + m b) a with hle | hlt
            · exact hle
            · exact absurd ⟨hlt, hcur⟩ hc
          have hnone : ∀ x ∈ cur, m x ≤ a := by
            intro x hx
            by_contra hbig
            push_neg at hbig
            have hx1 : cur = [x] := hinv x hx hbig
            rw [hx1] at hsum
            simp at hsum
            omega
          refine ih _ _ _ (by simp [hsum]) ?_ p hp
          intro x hx hbig
          rcases List.mem_append.mp hx with hx | hx
          · exact absurd hbig (not_lt_of_le (hnone x hx))
          · simp only [List.mem_singleton] at hx
            subst hx
            omega

end Reader

namespace Reader

/-- Every start index the loop pushes is at least the current block
index. -/
theorem packGo_starts_ge (m : Block → ℕ) (a : ℕ) :
    ∀ (rest : List Block) (i : ℕ) (cur : List Block) (h : ℕ),
      ∀ j ∈ (packGo m a rest i cur h).2, i ≤ j := by
  intro rest
  induction rest with
  | nil => intro i cur h j hj; rw [packGo] at hj; simp at hj
  | cons b rest ih =>
    intro i cur h j hj
    rw [packGo] at hj
    by_cases hb : b.el = false
    · rw [if_pos hb] at hj
      exact le_trans (Nat.le_succ i) (ih _ _ _ j hj)
    · rw [if_neg hb] at hj
      by_cases hc : h + m b > a ∧ cur ≠ []
      · rw [if_pos hc] at hj
        simp only [List.mem_cons] at hj
        rcases hj with rfl | hj
        · exact le_refl j
        · exact le_trans (Nat.le_succ i) (ih _ _ _ j hj)
      · rw [if_neg hc] at hj
        exact le_trans (Nat.le_succ i) (ih _ _ _ j hj)

/-- With an empty pending page no flush can happen at the current index,
so every pushed start index is strictly beyond it. -/
theorem packGo_starts_ge_empty (m : Block → ℕ) (a : ℕ) :
    ∀ (rest : List Block) (i : ℕ) (h : ℕ),
      ∀ j ∈ (packGo m a rest i [] h).2, i + 1 ≤ j := by
  intro rest
  induction rest with
  | nil => intro i h j hj; rw [packGo] at hj; simp at hj
  | cons b rest ih =>
    intro i h j hj
    rw [packGo] at hj
    by_cases hb : b.el = false
    · rw [if_pos hb] at hj
      exact le_trans (Nat.le_succ (i + 1)) (ih _ _ j hj)
    · rw [if_neg hb, if_neg (by simp)] at hj
      exact packGo_starts_ge m a rest (i + 1) _ _ j hj

/-- The start indexes pushed by the loop are strictly increasing. -/
theorem packGo_starts_pairwise (m : Block → ℕ) (a : ℕ) :
    ∀ (rest : List Block) (i : ℕ) (cur : List Block) (h : ℕ),
      List.Pairwise (· < ·) (packGo m a rest i cur h).2 := by
  intro rest
  induction rest with
  | nil => intro i cur h; rw [packGo]; simp
  | cons b rest ih =>
    intro i cur h
    rw [packGo]
    by_cases hb : b.el = false
    · rw [if_pos hb]
      exact ih _ _ _
    · rw [if_neg hb]
      by_cases hc : h + m b > a ∧ cur ≠ []
      · rw [if_pos hc]
        refine List.Pairwise.cons ?_ (ih _ _ _)
        intro j hj
        exact lt_of_lt_of_le (Nat.lt_succ_self i)
          (packGo_starts_ge m a rest (i + 1) _ _ j hj)
      · rw [if_neg hc]
        exact ih _ _ _

/-- With a non-empty pending page the loop flushes exactly one more page
than it pushes start indexes. -/
theorem packGo_len (m : Block → ℕ) (a : ℕ) :
    ∀ (rest : List Block) (i : ℕ) (cur : List Block) (h : ℕ), cur ≠ [] →
      (packGo m a rest i cur h).1.length
        = (packGo m a rest i cur h).2.length + 1 := by
  intro rest
  induction rest with
  | nil =>
    intro i cur h hcur
    rw [packGo, if_neg hcur]
    simp
  | cons b rest ih =>
    intro i cur h hcur
    rw [packGo]
    by_cases hb : b.el = false
    · rw [if_pos hb]
      exact ih _ _ _ hcur
    · rw [if_neg hb]
      by_cases hc : h + m b > a ∧ cur ≠ []
      · rw [if_pos hc]
        simp only [List.length_cons]
        rw [ih _ _ _ (by simp)]
      · rw [if_neg hc]
        exact ih _ _ _ (by simp)

/-- Starting from an empty pending page the loop either flushes nothing
and records nothing, or flushes exactly one more page than start
indexes. -/
theorem packGo_len_empty (m : Block → ℕ) (a : ℕ) :
    ∀ (rest : List Block) (i : ℕ) (h : ℕ),
      ((packGo m a rest i [] h).1 = [] ∧ (packGo m a rest i [] h).2 = []) ∨
      (packGo m a rest i [] h).1.length
        = (packGo m a rest i [] h).2.length + 1 := by
  intro rest
  induction rest with
  | nil => intro i h; rw [packGo]; simp
  | cons b rest ih =>
    intro i h
    rw [packGo]
    by_cases hb : b.el = false
    · rw [if_pos hb]
      exact ih _ _
    · rw [if_neg hb, if_neg (by simp)]
      exact Or.inr (packGo_len m a rest (i + 1) _ _ (by simp))

end Reader

namespace Reader

/-- Main invariant for the start-index table: on element blocks, if the
pending page is exactly the run of input blocks from `s` (its recorded
start) up to the current index `i`, then the pages the loop flushes are
exactly the consecutive slices of the input cut at `s` followed by the
pushed start indexes. -/
theorem packGo_slices (m : Block → ℕ) (a : ℕ) (bs : List Block) :
    ∀ (rest : List Block) (i s : ℕ) (cur : List Block) (h : ℕ),
      (∀ b ∈ rest, b.el = true) →
      rest = bs.drop i → cur = (bs.drop s).take (i - s) →
      cur ≠ [] → s ≤ i →
      (packGo m a rest i cur h).1
        = slices bs (s :: (packGo m a rest i cur h).2) := by
  intro rest
  induction rest with
  | nil =>
    intro i s cur h _ hrest hcur hne hsi
    rw [packGo, if_neg hne]
    have hlen : bs.length ≤ i := List.drop_eq_nil_iff.mp hrest.symm
    have hcur' : cur = bs.drop s := by
      rw [hcur]
      apply List.take_of_length_le
      rw [List.length_drop]
      omega
    rw [hcur']
    rfl
  | cons b rest ih =>
    intro i s cur h hel hrest hcur hne hsi
    have hb : b.el = true := hel b (by simp)
    have hel' : ∀ x ∈ rest, x.el = true := fun x hx => hel x (by simp [hx])
    have hib : bs[i]? = some b := by
      have h0 : (bs.drop i)[0]? = bs[i + 0]? := List.getElem?_drop bs i 0
      rw [← hrest] at h0
      simpa using h0.symm
    have hrest' : rest = bs.drop (i + 1) := by
      have hdd : List.drop 1 (List.drop i bs) = List.drop (i + 1) bs :=
        List.drop_drop 1 i bs
      rw [← hdd, ← hrest]
      rfl
    rw [packGo, if_neg (by simp [hb])]
    by_cases hc : h + m b > a ∧ cur ≠ []
    · rw [if_pos hc]
      have hcur1 : ([b] : List Block) = (bs.drop i).take (i + 1 - i) := by
        rw [← hrest]
        simp
      have hr := ih (i + 1) i [b] (m b) hel' hrest' hcur1 (by simp)
        (by omega)
      show cur :: (packGo m a rest (i + 1) [b] (m b)).1
        = slices bs (s :: i :: (packGo m a rest (i + 1) [b] (m b)).2)
      rw [slices, hr, hcur]
    · rw [if_neg hc]
      apply ih (i + 1) s (cur ++ [b]) (h + m b) hel' hrest' ?_ (by simp)
        (by omega)
      rw [hcur]
      have hstep : i + 1 - s = (i - s) + 1 := by omega
      rw [hstep, List.take_succ]
      congr 1
      rw [List.getElem?_drop]
      have hsis : s + (i - s) = i := by omega
      rw [hsis, hib]
      rfl

end Reader

namespace Reader

/-- When the loop flushed at least one page, `paginateBlocks` returns the
flushed pages with the start table `0 ::` the pushed indexes. -/
theorem paginateBlocks_pos (blocks : List Block) (m : Block → ℕ) (a : ℕ)
    (hz : (packGo m a blocks 0 [] 0).1 ≠ []) :
    paginateBlocks blocks m a
      = ⟨(packGo m a blocks 0 [] 0).1, 0 :: (packGo m a blocks 0 [] 0).2⟩ := by
  unfold paginateBlocks
  rw [if_pos (List.length_pos.mpr hz)]

/-- When the loop flushed nothing, `paginateBlocks` returns the single
page of all blocks with start table `[0]`. -/
theorem paginateBlocks_degenerate (blocks : List Block) (m : Block → ℕ)
    (a : ℕ) (hz : (packGo m a blocks 0 [] 0).1 = []) :
    paginateBlocks blocks m a = ⟨[blocks], [0]⟩ := by
  unfold paginateBlocks
  rw [if_neg (by simp [hz])]

/-- C1 (amended: for block sequences whose fragments all parse to
elements, as every segmenter-produced block does): `paginateBlocks`
equals the spec's reference greedy single-pass packing; any page holding
a block whose measured height alone exceeds the usable height is that
block by itself; and if the pass yields zero pages the result is a single
page of all blocks with start-index table `[0]`. -/
theorem paginateBlocks_matches_reference (blocks : List Block)
    (m : Block → ℕ) (a : ℕ) (hel : ∀ b ∈ blocks, b.el = true) :
    paginateBlocks blocks m a = specPack blocks m a ∧
    (∀ p ∈ (paginateBlocks blocks m a).pages, ∀ b ∈ p, a < m b → p = [b]) ∧
    ((packGo m a blocks 0 [] 0).1 = [] →
      paginateBlocks blocks m a = ⟨[blocks], [0]⟩) := by
  refine ⟨?_, ?_, paginateBlocks_degenerate blocks m a⟩
  · unfold paginateBlocks specPack
    rw [packGo_eq_specPackGo m a blocks 0 [] 0 hel]
  · intro p hp b hb hbig
    by_cases hz : (packGo m a blocks 0 [] 0).1 = []
    · by_cases hblocks : blocks = []
      · subst hblocks
        rw [paginateBlocks_degenerate [] m a hz] at hp
        simp only [List.mem_singleton] at hp
        subst hp
        simp at hb
      · exact absurd hz
          (packGo_pages_ne m a blocks 0 [] 0 hel (Or.inr hblocks))
    · rw [paginateBlocks_pos blocks m a hz] at hp
      exact packGo_oversized m a blocks 0 [] 0 rfl (by simp) p hp b hb hbig

/-- Counterexample to C1 as stated (quantifying over every block
sequence): a fragment with no element child is skipped unmeasured by
`paginateBlocks` but packed by the reference rule, so the two differ. -/
theorem paginateBlocks_matches_reference_cex :
    paginateBlocks [blockA, blockT] measure100 250
      ≠ specPack [blockA, blockT] measure100 250 := by decide

/-- Witness for C1 at a concrete input: three element blocks of height
100 at usable height 250. -/
theorem paginateBlocks_matches_reference_witness :
    (∀ b ∈ [blockA, blockB, blockC], b.el = true) ∧
    paginateBlocks [blockA, blockB, blockC] measure100 250
      = specPack [blockA, blockB, blockC] measure100 250 :=
  ⟨by decide,
    (paginateBlocks_matches_reference [blockA, blockB, blockC] measure100
      250 (by decide)).1⟩

/-- C2 (amended: for block sequences whose fragments all parse to
elements, as every segmenter-produced block does): concatenating the
blocks of all pages of a packing in page order reproduces the original
block sequence exactly — nothing duplicated, dropped, reordered or split
across pages. -/
theorem pagination_coverage (blocks : List Block) (m : Block → ℕ) (a : ℕ)
    (hel : ∀ b ∈ blocks, b.el = true) :
    (paginateBlocks blocks m a).pages.flatten = blocks := by
  by_cases hz : (packGo m a blocks 0 [] 0).1 = []
  · rw [paginateBlocks_degenerate blocks m a hz]
    simp
  · rw [paginateBlocks_pos blocks m a hz]
    simpa using packGo_join m a blocks 0 [] 0 hel

/-- Counterexample to C2 as stated (quantifying over every block
sequence): a fragment with no element child is dropped from every page,
so concatenating the pages loses it. -/
theorem pagination_coverage_cex :
    (paginateBlocks [blockT, blockA] measure100 250).pages.flatten
      ≠ [blockT, blockA] := by decide

/-- Witness for C2 at a concrete input: two element blocks of height 100
at usable height 150 pack one per page, and the pages concatenate back to
the input. -/
theorem pagination_coverage_witness :
    (∀ b ∈ [blockB, blockC], b.el = true) ∧
    (paginateBlocks [blockB, blockC] measure100 150).pages.flatten
      = [blockB, blockC] :=
  ⟨by decide, pagination_coverage [blockB, blockC] measure100 150 (by decide)⟩

/-- C4 (amended: for block sequences whose fragments all parse to
elements, as every segmenter-produced block does): the start-index table
of a packing is strictly increasing, starts at 0, has exactly one entry
per page, and cuts the input into exactly the produced pages — so
`start[i]` is the ordinal of the first block of page `i`. -/
theorem pagination_start_table (blocks : List Block) (m : Block → ℕ)
    (a : ℕ) (hel : ∀ b ∈ blocks, b.el = true) :
    List.Pairwise (· < ·) (paginateBlocks blocks m a).pageStartIndexes ∧
    (paginateBlocks blocks m a).pageStartIndexes.head? = some 0 ∧
    (paginateBlocks blocks m a).pageStartIndexes.length
      = (paginateBlocks blocks m a).pages.length ∧
    (paginateBlocks blocks m a).pages
      = slices blocks (paginateBlocks blocks m a).pageStartIndexes := by
  by_cases hz : (packGo m a blocks 0 [] 0).1 = []
  · rw [paginateBlocks_degenerate blocks m a hz]
    exact ⟨by simp, rfl, rfl, by simp [slices]⟩
  · rw [paginateBlocks_pos blocks m a hz]
    refine ⟨?_, rfl, ?_, ?_⟩
    · refine List.Pairwise.cons ?_ (packGo_starts_pairwise m a blocks 0 [] 0)
      intro j hj
      exact lt_of_lt_of_le Nat.zero_lt_one
        (packGo_starts_ge_empty m a blocks 0 0 j hj)
    · rcases packGo_len_empty m a blocks 0 0 with ⟨h1, _⟩ | h1
      · exact absurd h1 hz
      · simp [h1]
    · rcases blocks with _ | ⟨b, bs'⟩
      · rw [packGo] at hz
        simp at hz
      · have hb : b.el = true := hel b (by simp)
        have hel' : ∀ x ∈ bs', x.el = true := fun x hx =>
          hel x (by simp [hx])
        have hstep : packGo m a (b :: bs') 0 [] 0
            = packGo m a bs' 1 [b] (0 + m b) := by
          rw [packGo, if_neg (by simp [hb]), if_neg (by simp)]
          rfl
        rw [hstep]
        exact packGo_slices m a (b :: bs') bs' 1 0 [b] (0 + m b) hel' rfl
          (by simp) (by simp) (by omega)

/-- Counterexample to C4 as stated (quantifying over every packing
produced by `paginateBlocks`): when the first fragment has no element
child it is skipped, yet the start table still begins with 0, which is
then not the ordinal of the first block of page 0. -/
theorem pagination_start_table_cex :
    ((paginateBlocks [blockT, blockB] measure100 250).pages.getD 0 []).head?
      ≠ [blockT, blockB][(paginateBlocks [blockT, blockB] measure100
          250).pageStartIndexes.getD 0 0]? := by decide

/-- Witness for C4 at a concrete input: three element blocks of height
100 at usable height 250 give pages `[[A,B],[C]]` cut exactly at the
start table `[0, 2]`. -/
theorem pagination_start_table_witness :
    (∀ b ∈ [blockA, blockB, blockC], b.el = true) ∧
    (paginateBlocks [blockA, blockB, blockC] measure100 250).pages
      = slices [blockA, blockB, blockC]
          (paginateBlocks [blockA, blockB, blockC] measure100
            250).pageStartIndexes :=
  ⟨by decide,
    (pagination_start_table [blockA, blockB, blockC] measure100 250
      (by decide)).2.2.2⟩

end Reader
